import Mathlib

/-!
Verification of the cloud-storage path/resource domain model and the
virtual-filesystem interactors.

Python strings are modelled as `List Char`; Python exceptions as `Except`
values; the object-storage gateway as an explicit key-list state threaded
through each interactor together with the list of storage keys handed to
the gateway (most recent first).

The repository contains two generations of the domain layer.  The older
`domain/value_objects.py` (leading-slash paths, `MoveOperation`) is embedded
in the `Legacy` namespace directly from that file.  The newer domain model
used by `application/interactors.py` and `tests/test_units.py` is not part
of the source tree; its operations are modelled from the specification in
the `Fs` namespace, and the interactors are embedded from
`application/interactors.py` on top of them.
-/

namespace CloudStorage

/-- Python `str`, modelled as a list of characters. -/
abbrev Str := List Char

/-- Python `pat in s`: `pat` occurs as a contiguous substring of `s`. -/
def containsSub (pat : Str) : Str → Bool
  | [] => pat.isEmpty
  | c :: t => pat.isPrefixOf (c :: t) || containsSub pat t

/-- Python `s.endswith(c)` for a single character `c`. -/
def endsWithChar (s : Str) (c : Char) : Bool :=
  s.getLast? == some c

theorem containsSub_iff (pat s : Str) :
    containsSub pat s = true ↔ ∃ a b, s = a ++ pat ++ b := by
  induction s with
  | nil =>
    simp only [containsSub, List.isEmpty_iff]
    constructor
    · intro h; exact ⟨[], [], by simp [h]⟩
    · rintro ⟨a, b, h⟩
      rcases List.append_eq_nil.mp ((List.append_eq_nil).mp h.symm).left with ⟨_, h2⟩
      exact h2
  | cons c t ih =>
    simp only [containsSub, Bool.or_eq_true, ih]
    constructor
    · rintro (h | ⟨a, b, h⟩)
      · exact ⟨[], (c :: t).drop pat.length, by
          have := List.isPrefixOf_iff_prefix.mp h
          rcases this with ⟨r, hr⟩
          simp [← hr]⟩
      · exact ⟨c :: a, b, by simp [h]⟩
    · rintro ⟨a, b, h⟩
      match a with
      | [] =>
        left
        apply List.isPrefixOf_iff_prefix.mpr
        exact ⟨b, by simpa using h.symm⟩
      | a0 :: a' =>
        right
        refine ⟨a', b, ?_⟩
        simpa using (List.cons_eq_cons.mp h).right

theorem containsSub_append_left (pat a b : Str) (h : containsSub pat a = true) :
    containsSub pat (a ++ b) = true := by
  rcases (containsSub_iff pat a).mp h with ⟨u, v, rfl⟩
  exact (containsSub_iff pat _).mpr ⟨u, v ++ b, by simp⟩

theorem containsSub_of_isPre (pat a s : Str) (hp : a <+: s)
    (h : containsSub pat a = true) : containsSub pat s = true := by
  rcases hp with ⟨t, rfl⟩
  exact containsSub_append_left pat a t h

theorem containsSub2_append (x y : Char) (a b : Str) :
    containsSub [x, y] (a ++ b) =
      (containsSub [x, y] a ||
       (a.getLast? == some x && b.head? == some y) ||
       containsSub [x, y] b) := by
  induction a with
  | nil => simp [containsSub]
  | cons c t ih =>
    match t with
    | [] =>
      match b with
      | [] => simp [containsSub, List.isPrefixOf]
      | d :: b' =>
        simp only [List.nil_append, List.singleton_append, containsSub, List.isPrefixOf,
          List.getLast?_singleton, List.head?_cons]
        cases hcx : c == x <;> cases hdy : d == y <;>
          simp_all [containsSub, List.isPrefixOf, Bool.beq_comm]
    | c2 :: t' =>
      have hLast : (c :: c2 :: t').getLast? = (c2 :: t').getLast? := by
        simp [List.getLast?_cons_cons]
      simp only [List.cons_append, containsSub, List.isPrefixOf, ih, hLast]
      cases c == x <;> cases c2 == y <;>
        simp_all [containsSub, List.isPrefixOf, Bool.or_assoc, Bool.beq_comm]

/-! ## Legacy domain model (`domain/value_objects.py`, as in the tree)

Paths in this generation are absolute strings: they start with `/`, contain
no `//`, no control characters, and do not end in `/` except for the root
`"/"` itself. -/

namespace Legacy

/-- `Path._validate` from `domain/value_objects.py`: the checks in source
order, reported as the first failing message. -/
def pathError (s : Str) : Option String :=
  if s = [] then some "Path cannot be empty"
  else if ¬ ['/'].isPrefixOf s then some "Path must start with /"
  else if containsSub ['/', '/'] s then some "Path cannot contain double slashes"
  else if endsWithChar s '/' ∧ s ≠ ['/'] then some "Path cannot end with / except root"
  else if '\x00' ∈ s ∨ '\n' ∈ s ∨ '\r' ∈ s ∨ '\t' ∈ s then some "Path cannot contain control char"
  else none

/-- A string accepted by the legacy `Path` constructor. -/
def validPath (s : Str) : Bool := (pathError s).isNone

/-- `Path.is_ancestor_of` from `domain/value_objects.py`. -/
def isAncestorOf (self other : Str) : Bool :=
  if self = other then false
  else (self ++ ['/']).isPrefixOf other

/-- `Path.is_descendant_of` from `domain/value_objects.py`. -/
def isDescendantOf (self other : Str) : Bool :=
  isAncestorOf other self

/-- `MoveOperation.validate` from `domain/value_objects.py`: rejects equal
paths, a destination inside the source, and moving the root. -/
def moveValidate (fromPath toPath : Str) : Except String Unit :=
  if fromPath = toPath then
    .error "Source and destination paths are the same"
  else if isDescendantOf toPath fromPath then
    .error "Cannot move into its own descendant"
  else if fromPath = ['/'] then
    .error "Cannot move root directory"
  else
    .ok ()

/-- Join a list of path segments with `/` separators (no leading slash). -/
def joinSegs : List Str → Str
  | [] => []
  | [s] => s
  | s :: r0 :: rest => s ++ '/' :: joinSegs (r0 :: rest)

/-- A legacy absolute path spelled from its segment list. -/
def ofSegs (segs : List Str) : Str := '/' :: joinSegs segs

theorem joinSegs_append (a b : List Str) (ha : a ≠ []) (hb : b ≠ []) :
    joinSegs (a ++ b) = joinSegs a ++ '/' :: joinSegs b := by
  induction a with
  | nil => exact absurd rfl ha
  | cons x a' ih =>
    match a', b with
    | [], b0 :: b' => simp [joinSegs]
    | a0 :: a'', b =>
      have h := ih (by simp)
      simp only [List.cons_append, joinSegs, List.append_eq] at h ⊢
      rw [h]
      simp

theorem moveValidate_error_of (f t : Str)
    (h : f = t ∨ isDescendantOf t f = true ∨ f = ['/']) :
    ∃ msg, moveValidate f t = .error msg := by
  unfold moveValidate
  split_ifs with h1 h2 h3
  · exact ⟨_, rfl⟩
  · exact ⟨_, rfl⟩
  · exact ⟨_, rfl⟩
  · rcases h with h | h | h
    · exact absurd h h1
    · exact absurd h (by simpa using h2)
    · exact absurd h h3

end Legacy

/-- The opaque Python string `s`, as a character list. -/
def pyStr (s : String) : Str := s.data

/-- **C1..C10 share these segment-level notions.**
`t` lies strictly inside `f` when `f`'s segment list is a proper prefix of
`t`'s segment list. For legacy absolute paths this is spelled through
`Legacy.ofSegs`. -/
def segDescends (t f : Str) : Prop :=
  ∃ segs ext, ext ≠ [] ∧ f = Legacy.ofSegs segs ∧ t = Legacy.ofSegs (segs ++ ext)

/-- **C10.** Constructing a `MoveOperation` always fails with a domain error
when the destination path equals the source path or is a descendant of the
source path: `MoveOperation.validate` rejects every such pair of valid
legacy paths. -/
theorem claim_C10_move_rejects_self_and_descendant (f t : Str)
    (hf : Legacy.validPath f = true) (ht : Legacy.validPath t = true)
    (h : t = f ∨ segDescends t f) :
    ∃ msg, Legacy.moveValidate f t = .error msg := by
  rcases h with h | ⟨segs, ext, hext, hfeq, hteq⟩
  · exact Legacy.moveValidate_error_of f t (Or.inl h.symm)
  · match segs with
    | [] =>
      exact Legacy.moveValidate_error_of f t (Or.inr (Or.inr (by simp [hfeq, Legacy.ofSegs, Legacy.joinSegs])))
    | s0 :: segs' =>
      apply Legacy.moveValidate_error_of f t
      refine Or.inr (Or.inl ?_)
      have hjoin := Legacy.joinSegs_append (s0 :: segs') ext (by simp) hext
      have hteq' : t = f ++ '/' :: Legacy.joinSegs ext := by
        rw [hteq, hfeq, Legacy.ofSegs, Legacy.ofSegs, hjoin]
        simp
      have hne : f ≠ t := by
        intro hcontra
        have := congrArg List.length hcontra
        rw [hteq'] at this
        simp at this
      unfold Legacy.isDescendantOf Legacy.isAncestorOf
      rw [if_neg hne]
      apply List.isPrefixOf_iff_prefix.mpr
      exact ⟨Legacy.joinSegs ext, by rw [hteq']; simp⟩

/-- Closed witness for C10: moving `"/folder"` onto its descendant
`"/folder/sub"` is rejected. -/
theorem claim_C10_witness :
    ∃ msg, Legacy.moveValidate (pyStr "/folder") (pyStr "/folder/sub") = .error msg :=
  claim_C10_move_rejects_self_and_descendant (pyStr "/folder") (pyStr "/folder/sub")
    (by decide) (by decide)
    (Or.inr ⟨[pyStr "folder"], [pyStr "sub"], by decide, by rfl, by rfl⟩)

/-! ## Final domain model

The generation of `Path`/`Resource`/`User` actually imported by
`application/interactors.py` and exercised by `tests/test_units.py` is not
present in the tree; it is modelled here from the specification (relative
slash-delimited values, trailing-slash directories, empty root). -/

namespace Fs

/-- Error kinds of the specification's taxonomy (§7). -/
inductive Err
  | pathValidation
  | domainValidation
  | notDirectoryJoin
  | notFound
  | alreadyExists
  | notDirectory
  | weakPassword
  | wrongPassword
  deriving DecidableEq, Repr

/-- Control characters a path may never contain. -/
def controlChars : List Char := ['\x00', '\n', '\r', '\t']

/-- Quote characters a path may never contain. -/
def quoteChars : List Char := ['\'', '"']

/-- Modelled from the spec: the final `Path` validation (`Path._validate` of
the missing current `domain/value_objects.py`) — a path never starts with
`/`, never contains `//`, control characters, quote characters, or `..`;
the empty string is the root. -/
def validate (s : Str) : Bool :=
  !(['/'].isPrefixOf s) &&
  !containsSub ['/', '/'] s &&
  s.all (fun c => !controlChars.contains c) &&
  s.all (fun c => !quoteChars.contains c) &&
  !containsSub ['.', '.'] s

/-- Modelled from the spec: constructing a `Path` value; fails with the
path-validation error on malformed input. -/
def mk? (s : Str) : Except Err Str :=
  if validate s then .ok s else .error .pathValidation

/-- Modelled from the spec: `Path.is_root` — the empty string. -/
def isRoot (s : Str) : Bool := s == []

/-- Modelled from the spec: `Path.is_directory` — the root or a value ending
in `/`. -/
def isDirectory (s : Str) : Bool := s == [] || endsWithChar s '/'

/-- Drop a trailing `/` if present (helper for `parent` and `nameOf`). -/
def stripSlash (s : Str) : Str :=
  if endsWithChar s '/' then s.dropLast else s

/-- Modelled from the spec: `Path.parent` — drop the last segment and keep
the trailing slash; the root's parent is the root itself. -/
def parent (s : Str) : Str :=
  ((stripSlash s).reverse.dropWhile (fun c => c ≠ '/')).reverse

/-- Modelled from the spec: `Path.name` — the last non-empty segment. -/
def nameOf (s : Str) : Str :=
  ((stripSlash s).reverse.takeWhile (fun c => c ≠ '/')).reverse

/-- Modelled from the spec: `Path.join` — concatenation, allowed only when
the receiver is a directory; the result is re-validated like any
constructed path. -/
def join (self other : Str) : Except Err Str :=
  if isDirectory self then mk? (self ++ other) else .error .notDirectoryJoin

/-- `ResourceType` from `domain/models.py`. -/
inductive ResourceType
  | file
  | directory
  deriving DecidableEq, Repr

/-- The final `Resource` entity: a typed, optionally sized view of a path. -/
structure Resource where
  path : Str
  type : ResourceType
  size : Option Int
  deriving DecidableEq, Repr

/-- Modelled from the spec: the final `Resource` invariant — a file has a
non-negative size and a non-directory path, a directory has no size and a
directory path. -/
def Resource.validate (ty : ResourceType) (size : Option Int) (path : Str) : Bool :=
  match ty with
  | .file => (match size with | some n => decide (0 ≤ n) | none => false) && !isDirectory path
  | .directory => size == none && isDirectory path

/-- Modelled from the spec: constructing a `Resource`, failing the invariant
check with a domain-validation error. -/
def Resource.mk? (path : Str) (ty : ResourceType) (size : Option Int) : Except Err Resource :=
  if Resource.validate ty size path then .ok ⟨path, ty, size⟩ else .error .domainValidation

/-- The user record as the interactors see it: an identity and the root
namespace path stored with it. -/
structure Usr where
  id : Str
  rootPath : Str
  deriving DecidableEq, Repr

/-- Modelled from the spec: `User.root_path` is derived from the identity as
`user-<id>-files/`. -/
def rootPathOf (id : Str) : Str := pyStr "user-" ++ id ++ pyStr "-files/"

theorem validate_of_isPre (a s : Str) (hp : a <+: s) (hv : validate s = true) :
    validate a = true := by
  simp only [validate, Bool.and_eq_true, Bool.not_eq_true', List.all_eq_true] at hv ⊢
  obtain ⟨⟨⟨⟨h1, h2⟩, h3⟩, h4⟩, h5⟩ := hv
  refine ⟨⟨⟨⟨?_, ?_⟩, ?_⟩, ?_⟩, ?_⟩
  · rcases hp with ⟨u, rfl⟩
    cases a with
    | nil => simp [List.isPrefixOf]
    | cons c t =>
      simp only [List.cons_append, List.isPrefixOf] at h1 ⊢
      simpa using h1
  · cases hc : containsSub ['/', '/'] a with
    | false => rfl
    | true => rw [containsSub_of_isPre _ _ _ hp hc] at h2; exact h2
  · exact fun c hc => h3 c (hp.subset hc)
  · exact fun c hc => h4 c (hp.subset hc)
  · cases hc : containsSub ['.', '.'] a with
    | false => rfl
    | true => rw [containsSub_of_isPre _ _ _ hp hc] at h5; exact h5

theorem stripSlash_isPre (s : Str) : stripSlash s <+: s := by
  unfold stripSlash
  split
  · exact List.dropLast_prefix s
  · exact List.prefix_refl s

theorem parent_isPre_strip (s : Str) : parent s <+: stripSlash s := by
  unfold parent
  rcases List.dropWhile_suffix (l := (stripSlash s).reverse) (fun c => c ≠ '/') with ⟨u, hu⟩
  exact ⟨u.reverse, by rw [← List.reverse_append, hu, List.reverse_reverse]⟩

theorem parent_isPre (s : Str) : parent s <+: s :=
  List.IsPrefix.trans (parent_isPre_strip s) (stripSlash_isPre s)

theorem parent_valid (s : Str) (hv : validate s = true) : validate (parent s) = true :=
  validate_of_isPre _ s (parent_isPre s) hv

theorem dropWhile_head_not (p : Char → Bool) (l : Str) :
    l.dropWhile p = [] ∨ ∃ c t, l.dropWhile p = c :: t ∧ p c = false := by
  induction l with
  | nil => exact Or.inl rfl
  | cons c t ih =>
    by_cases h : p c
    · simpa [List.dropWhile, h] using ih
    · exact Or.inr ⟨c, t, by simp [List.dropWhile, h], by simpa using h⟩

theorem parent_isDirectory (s : Str) : isDirectory (parent s) = true := by
  unfold parent
  rcases dropWhile_head_not (fun c => c ≠ '/') (stripSlash s).reverse with h | ⟨c, t, h, hc⟩
  · rw [h]
    rfl
  · have hc' : c = '/' := by simpa using hc
    subst hc'
    rw [h]
    simp [isDirectory, endsWithChar, List.getLast?_reverse]

theorem parent_length_lt (s : Str) (hs : s ≠ []) : (parent s).length < s.length := by
  have hpre : (parent s).length ≤ (stripSlash s).length := (parent_isPre_strip s).length_le
  have hlen : 1 ≤ s.length := by
    cases s with
    | nil => exact absurd rfl hs
    | cons c t => simp
  by_cases hd : endsWithChar s '/' = true
  · have h1 : (stripSlash s).length = s.length - 1 := by
      simp [stripSlash, hd]
    omega
  · have hstrip : stripSlash s = s := by simp [stripSlash, hd]
    obtain ⟨c, t, hrev⟩ : ∃ c t, s.reverse = c :: t := by
      cases hr : s.reverse with
      | nil =>
        exact absurd (by simpa using congrArg List.reverse hr) hs
      | cons c t => exact ⟨c, t, rfl⟩
    have hc : c ≠ '/' := by
      intro hcontra
      apply hd
      have : s.getLast? = some c := by
        rw [← List.head?_reverse, hrev]
        rfl
      simp [endsWithChar, this, hcontra]
    have hdrop : List.dropWhile (fun x => x ≠ '/') (c :: t) =
        List.dropWhile (fun x => x ≠ '/') t := by
      simp [List.dropWhile, hc]
    have hlen2 : s.length = t.length + 1 := by
      have := congrArg List.length hrev
      simpa using this
    have : (parent s).length ≤ t.length := by
      unfold parent
      rw [hstrip, hrev, hdrop]
      simpa using (List.dropWhile_suffix (l := t) (fun x => x ≠ '/')).length_le
    omega

theorem validate_head_ne_slash (b : Str) (hb : validate b = true) :
    (b.head? == some '/') = false := by
  simp only [validate, Bool.and_eq_true, Bool.not_eq_true'] at hb
  obtain ⟨⟨⟨⟨h1, _⟩, _⟩, _⟩, _⟩ := hb
  cases b with
  | nil => rfl
  | cons c t =>
    simp only [List.isPrefixOf] at h1
    have h2 : c ≠ '/' := by
      intro hh
      rw [hh] at h1
      simp at h1
    simp only [List.head?_cons]
    exact beq_eq_false_iff_ne.mpr (fun hcontra => h2 (Option.some.inj hcontra))

theorem dir_getLast_ne (a : Str) (hd : isDirectory a = true) (x : Char) (hx : x ≠ '/') :
    (a.getLast? == some x) = false := by
  unfold isDirectory at hd
  rcases Bool.or_eq_true_iff.mp hd with h | h
  · have : a = [] := by simpa using h
    subst this
    rfl
  · unfold endsWithChar at h
    have hlast : a.getLast? = some '/' := by simpa using h
    rw [hlast]
    exact beq_eq_false_iff_ne.mpr (fun hcontra => hx (Option.some.inj hcontra).symm)

theorem validate_nil : validate [] = true := by decide

theorem validConcat (a b : Str) (ha : validate a = true) (hdir : isDirectory a = true)
    (hb : validate b = true) : validate (a ++ b) = true := by
  have hbhead := validate_head_ne_slash b hb
  simp only [validate, Bool.and_eq_true, Bool.not_eq_true', List.all_eq_true] at ha hb ⊢
  obtain ⟨⟨⟨⟨a1, a2⟩, a3⟩, a4⟩, a5⟩ := ha
  obtain ⟨⟨⟨⟨b1, b2⟩, b3⟩, b4⟩, b5⟩ := hb
  refine ⟨⟨⟨⟨?_, ?_⟩, ?_⟩, ?_⟩, ?_⟩
  · cases a with
    | nil => simpa using b1
    | cons c t =>
      simp only [List.cons_append, List.isPrefixOf] at a1 ⊢
      simpa using a1
  · rw [containsSub2_append]
    simp [a2, b2, hbhead]
  · intro c hc
    rcases List.mem_append.mp hc with h | h
    exacts [a3 c h, b3 c h]
  · intro c hc
    rcases List.mem_append.mp hc with h | h
    exacts [a4 c h, b4 c h]
  · rw [containsSub2_append]
    simp [a5, b5, dir_getLast_ne a hdir '.' (by decide)]

theorem join_ok (a b : Str) (ha : validate a = true) (hdir : isDirectory a = true)
    (hb : validate b = true) : join a b = .ok (a ++ b) := by
  simp [join, mk?, hdir, validConcat a b ha hdir hb]

theorem join_shape (a b f : Str) (h : join a b = .ok f) : f = a ++ b := by
  unfold join mk? at h
  split_ifs at h
  exact (Except.ok.inj h).symm

theorem parent_append_seg (p n : Str) (hdir : isDirectory p = true) (hn : n ≠ [])
    (hslash : '/' ∉ n) : parent (p ++ n) = p := by
  have hlastn : (p ++ n).getLast? = n.getLast? := List.getLast?_append_of_ne_nil p hn
  obtain ⟨c, hc, hcm⟩ : ∃ c, n.getLast? = some c ∧ c ∈ n := by
    cases n with
    | nil => exact absurd rfl hn
    | cons d t => exact ⟨(d :: t).getLast (by simp), List.getLast?_eq_getLast _ _, List.getLast_mem _⟩
  have hstrip : stripSlash (p ++ n) = p ++ n := by
    have : endsWithChar (p ++ n) '/' = false := by
      unfold endsWithChar
      rw [hlastn, hc]
      exact beq_eq_false_iff_ne.mpr (fun hcontra => hslash ((Option.some.inj hcontra) ▸ hcm))
    simp [stripSlash, this]
  unfold parent
  rw [hstrip, List.reverse_append, List.dropWhile_append]
  have hnrev : n.reverse.dropWhile (fun c => c ≠ '/') = [] :=
    List.dropWhile_eq_nil_iff.mpr (fun x hx => by
      simp only [ne_eq, decide_not, Bool.not_eq_true', decide_eq_false_iff_not]
      exact fun hcontra => hslash (hcontra ▸ List.mem_reverse.mp hx))
  rw [hnrev]
  simp only [List.isEmpty_nil, if_true]
  unfold isDirectory at hdir
  rcases Bool.or_eq_true_iff.mp hdir with h | h
  · have : p = [] := by simpa using h
    subst this
    simp
  · unfold endsWithChar at h
    have hp : p.getLast? = some '/' := by simpa using h
    have hp' : p.reverse.head? = some '/' := by
      rw [List.head?_reverse]
      exact hp
    obtain ⟨t, ht⟩ : ∃ t, p.reverse = '/' :: t := by
      cases hr : p.reverse with
      | nil =>
        rw [hr] at hp'
        cases hp'
      | cons d t =>
        rw [hr] at hp'
        exact ⟨t, by rw [show d = '/' by simpa using hp']⟩
    have hkeep : List.dropWhile (fun c => c ≠ '/') ('/' :: t) = '/' :: t := by
      simp [List.dropWhile]
    rw [ht, hkeep, ← ht, List.reverse_reverse]

theorem leadSlash_iff (s : Str) : (['/'].isPrefixOf s) = false ↔ s.head? ≠ some '/' := by
  cases s with
  | nil => simp [List.isPrefixOf]
  | cons c t =>
    show (('/' == c) && List.isPrefixOf [] t) = false ↔ _
    rw [show List.isPrefixOf [] t = true by simp [List.isPrefixOf], Bool.and_true,
      Bool.eq_false_iff, ne_eq, beq_iff_eq]
    simp only [List.head?_cons, ne_eq, Option.some.injEq]
    exact ⟨fun h hc => h hc.symm, fun h hc => h hc.symm⟩

theorem noSub2_iff (x y : Char) (s : Str) :
    (containsSub [x, y] s) = false ↔ ¬ ∃ a b, s = a ++ x :: y :: b := by
  rw [Bool.eq_false_iff, ne_eq, containsSub_iff]
  constructor
  · exact fun h ⟨a, b, hh⟩ => h ⟨a, b, by simpa using hh⟩
  · exact fun h ⟨a, b, hh⟩ => h ⟨a, b, by simpa using hh⟩

theorem mem_of_containsSub2 (x y : Char) (s : Str) (h : containsSub [x, y] s = true) :
    x ∈ s ∧ y ∈ s := by
  rcases (containsSub_iff _ _).mp h with ⟨a, b, rfl⟩
  constructor <;> simp

end Fs

/-- The path format invariants as the specification states them: no leading
slash, no double slash, no control characters, no quote characters, no
`..` anywhere. -/
def formatInvariant (s : Str) : Prop :=
  s.head? ≠ some '/' ∧
  ¬ (∃ a b, s = a ++ '/' :: '/' :: b) ∧
  (∀ c ∈ s, c ≠ '\x00' ∧ c ≠ '\n' ∧ c ≠ '\r' ∧ c ≠ '\t') ∧
  (∀ c ∈ s, c ≠ '\'' ∧ c ≠ '"') ∧
  ¬ (∃ a b, s = a ++ '.' :: '.' :: b)

theorem validate_iff_format (s : Str) : Fs.validate s = true ↔ formatInvariant s := by
  unfold Fs.validate formatInvariant
  simp only [Bool.and_eq_true, Bool.not_eq_true']
  rw [Fs.leadSlash_iff, Fs.noSub2_iff, Fs.noSub2_iff]
  constructor
  · rintro ⟨⟨⟨⟨h1, h2⟩, h3⟩, h4⟩, h5⟩
    refine ⟨h1, h2, ?_, ?_, h5⟩
    · intro c hc
      have := List.all_eq_true.mp h3 c hc
      simpa [Fs.controlChars, not_or] using this
    · intro c hc
      have := List.all_eq_true.mp h4 c hc
      simpa [Fs.quoteChars, not_or] using this
  · rintro ⟨h1, h2, h3, h4, h5⟩
    refine ⟨⟨⟨⟨h1, h2⟩, ?_⟩, ?_⟩, h5⟩
    · exact List.all_eq_true.mpr fun c hc => by
        simpa [Fs.controlChars, not_or] using h3 c hc
    · exact List.all_eq_true.mpr fun c hc => by
        simpa [Fs.quoteChars, not_or] using h4 c hc

/-- **C1.** Constructing a `Path` succeeds exactly when the string satisfies
the spec's format invariants, fails with the path-validation error on every
violating string, and a value is directory-shaped exactly when it is empty
or ends in a slash. -/
theorem claim_C1_path_construction_iff_format (s : Str) :
    (Fs.mk? s = .ok s ↔ formatInvariant s) ∧
    (¬ formatInvariant s → Fs.mk? s = .error .pathValidation) ∧
    (Fs.isDirectory s = true ↔ s = [] ∨ s.getLast? = some '/') := by
  refine ⟨?_, ?_, ?_⟩
  · rw [← validate_iff_format]
    unfold Fs.mk?
    constructor
    · intro h
      by_cases hv : Fs.validate s = true
      · exact hv
      · rw [if_neg hv] at h
        cases h
    · intro hv
      rw [if_pos hv]
  · rw [← validate_iff_format]
    intro hv
    unfold Fs.mk?
    rw [if_neg hv]
  · unfold Fs.isDirectory endsWithChar
    simp

/-- Closed witness for C1: a plain relative file path is accepted (so its
format invariants hold), and a leading-slash path is rejected with the
path-validation error. -/
theorem claim_C1_witness :
    formatInvariant (pyStr "folder/a.txt") ∧
    Fs.mk? (pyStr "/folder") = .error .pathValidation := by
  constructor
  · exact (claim_C1_path_construction_iff_format (pyStr "folder/a.txt")).1.mp rfl
  · exact (claim_C1_path_construction_iff_format (pyStr "/folder")).2.1
      (fun h => by exact absurd h.1 (by decide))

/-- The (type, size, path-shape) combinations the data model forbids: a file
without a non-negative size, a file at a directory-shaped path, a directory
with a size, a directory at a non-directory-shaped path. -/
def violatesResourceModel (ty : Fs.ResourceType) (size : Option Int) (p : Str) : Prop :=
  (ty = .file ∧ (size = none ∨ ∃ n, size = some n ∧ n < 0)) ∨
  (ty = .file ∧ Fs.isDirectory p = true) ∨
  (ty = .directory ∧ size ≠ none) ∨
  (ty = .directory ∧ Fs.isDirectory p = false)

/-- **C7.** `Resource` construction fails for every (type, size, path-shape)
combination violating the data model. -/
theorem claim_C7_resource_invariants (p : Str) (ty : Fs.ResourceType) (size : Option Int)
    (hp : Fs.validate p = true) (h : violatesResourceModel ty size p) :
    Fs.Resource.mk? p ty size = .error .domainValidation := by
  unfold Fs.Resource.mk?
  rw [if_neg]
  simp only [Fs.Resource.validate]
  rcases h with ⟨hty, hsz | ⟨n, hn, hneg⟩⟩ | ⟨hty, hdir⟩ | ⟨hty, hsz⟩ | ⟨hty, hdir⟩ <;> subst hty
  · subst hsz
    simp
  · subst hn
    simp [hneg, not_le.mpr hneg]
  · simp [hdir]
  · cases size with
    | none => exact absurd rfl hsz
    | some n => simp
  · simp [hdir]

/-- Closed witness for C7: a directory resource carrying a size is rejected
with a domain-validation error. -/
theorem claim_C7_witness :
    Fs.Resource.mk? (pyStr "folder/") .directory (some 1) = .error .domainValidation :=
  claim_C7_resource_invariants (pyStr "folder/") .directory (some 1) (by decide)
    (Or.inr (Or.inr (Or.inl ⟨rfl, by decide⟩)))

/-- **C8.** The root's parent is the root itself and the root is a
directory; `parent` never fails: on every valid path it yields a valid
directory-shaped path (in particular no parent-lookup error exists in this
model). -/
theorem claim_C8_root_parent_total :
    (Fs.parent [] = [] ∧ Fs.isDirectory [] = true) ∧
    ∀ s, Fs.validate s = true →
      Fs.validate (Fs.parent s) = true ∧ Fs.isDirectory (Fs.parent s) = true := by
  refine ⟨⟨rfl, rfl⟩, fun s hv => ⟨Fs.parent_valid s hv, Fs.parent_isDirectory s⟩⟩

/-- Closed witness for C8 at a concrete non-root path. -/
theorem claim_C8_witness :
    Fs.validate (Fs.parent (pyStr "folder/a.txt")) = true ∧
    Fs.isDirectory (Fs.parent (pyStr "folder/a.txt")) = true :=
  claim_C8_root_parent_total.2 (pyStr "folder/a.txt") (by decide)

/-- A valid member name for `join`: non-empty, slash-free, and free of the
characters a path may not contain. -/
def validName (n : Str) : Bool :=
  !n.isEmpty &&
  !(n.contains '/') &&
  n.all (fun c => !(Fs.controlChars.contains c)) &&
  n.all (fun c => !(Fs.quoteChars.contains c)) &&
  !containsSub ['.', '.'] n

theorem validName_validate (n : Str) (h : validName n = true) : Fs.validate n = true := by
  simp only [validName, Bool.and_eq_true, Bool.not_eq_true'] at h
  obtain ⟨⟨⟨⟨h1, h2⟩, h3⟩, h4⟩, h5⟩ := h
  have hnoslash : '/' ∉ n := by simpa using h2
  simp only [Fs.validate, Bool.and_eq_true, Bool.not_eq_true']
  refine ⟨⟨⟨⟨?_, ?_⟩, h3⟩, h4⟩, h5⟩
  · rw [Fs.leadSlash_iff]
    cases n with
    | nil => simp
    | cons c t =>
      simp only [List.head?_cons, ne_eq, Option.some.injEq]
      exact fun hc => hnoslash (by simp [hc])
  · cases hc : containsSub ['/', '/'] n with
    | false => rfl
    | true => exact absurd (Fs.mem_of_containsSub2 '/' '/' n hc).1 hnoslash

/-- **C9.** Joining a valid name onto a valid directory path and taking the
parent gives back the original path: `Path(p).join(name).parent == Path(p)`. -/
theorem claim_C9_join_parent_roundtrip (p n : Str)
    (hp : Fs.validate p = true) (hdir : Fs.isDirectory p = true)
    (hn : validName n = true) :
    Fs.join p n = .ok (p ++ n) ∧ Fs.parent (p ++ n) = p := by
  have hnv := validName_validate n hn
  simp only [validName, Bool.and_eq_true, Bool.not_eq_true'] at hn
  obtain ⟨⟨⟨⟨h1, h2⟩, _⟩, _⟩, _⟩ := hn
  exact ⟨Fs.join_ok p n hp hdir hnv,
    Fs.parent_append_seg p n hdir (by simpa using h1) (by simpa using h2)⟩

/-- Closed witness for C9 at `"folder/"` and `"file.txt"`. -/
theorem claim_C9_witness :
    Fs.join (pyStr "folder/") (pyStr "file.txt") = .ok (pyStr "folder/" ++ pyStr "file.txt") ∧
    Fs.parent (pyStr "folder/" ++ pyStr "file.txt") = pyStr "folder/" :=
  claim_C9_join_parent_roundtrip (pyStr "folder/") (pyStr "file.txt")
    (by decide) (by decide) (by decide)

/-! ## The object-storage gateway and the interactors

The gateway is an external collaborator; its operations are modelled from
the spec's contract (§6): a state of existing object keys, plus the trace
of every key the interactor hands to the gateway (most recent first).
`list_directory` returns full child keys, `list_directory_recursive`
returns keys relative to the queried prefix, as the interactors consume
them. The interactor bodies themselves are embedded directly from
`application/interactors.py`. -/

namespace Fs

/-- Object-store state: existing keys and the trace of keys passed to the
gateway. -/
structure GState where
  keys : List Str
  touched : List Str
  deriving Repr

/-- `exists(path)`. -/
def gwExists (σ : GState) (k : Str) : Bool × GState :=
  (σ.keys.contains k, { σ with touched := k :: σ.touched })

/-- `create_directory(path)`: store an empty marker object at the key. -/
def gwCreateDirectory (σ : GState) (k : Str) : GState :=
  { keys := k :: σ.keys, touched := k :: σ.touched }

/-- `save_file(path, content)`: store an object at the key. -/
def gwSaveFile (σ : GState) (k : Str) : GState :=
  { keys := k :: σ.keys, touched := k :: σ.touched }

/-- `delete(path)`: remove the key and, for a directory key, every key it
prefixes. -/
def gwDelete (σ : GState) (k : Str) : GState :=
  { keys := σ.keys.filter fun x => !(x == k || (isDirectory k && k.isPrefixOf x)),
    touched := k :: σ.touched }

/-- `get_file(path)`. -/
def gwGetFile (σ : GState) (k : Str) : GState :=
  { σ with touched := k :: σ.touched }

/-- `get_file_size(path)`: sizes are supplied by the ambient store model. -/
def gwGetFileSize (fsize : Str → Int) (σ : GState) (k : Str) : Int × GState :=
  (fsize k, { σ with touched := k :: σ.touched })

/-- A relative value with no separator before its final position: an
immediate child. -/
def isDirectChildRel (rel : Str) : Bool :=
  !rel.isEmpty && !(rel.dropLast.contains '/')

/-- `list_directory(path)`: full keys of the immediate children. -/
def gwListDirectory (σ : GState) (k : Str) : List Str × GState :=
  (σ.keys.filter (fun x => k.isPrefixOf x && !(x == k) && isDirectChildRel (x.drop k.length)),
   { σ with touched := k :: σ.touched })

/-- `list_directory_recursive(path)`: every key under the prefix, relative
to it. -/
def gwListRecursive (σ : GState) (k : Str) : List Str × GState :=
  (σ.keys.filterMap (fun x => if k.isPrefixOf x && !(x == k) then some (x.drop k.length) else none),
   { σ with touched := k :: σ.touched })

/-- `move(from, to)`: rewrite every key under `from` to the corresponding
key under `to`. -/
def gwMove (σ : GState) (f t : Str) : GState :=
  { keys := σ.keys.map (fun x => if f.isPrefixOf x then t ++ x.drop f.length else x),
    touched := t :: f :: σ.touched }

/-- `GetResourceInteractor.__call__`. -/
def getResource (findUser : Str → Option Usr) (fsize : Str → Int) (uid path : Str)
    (σ : GState) : Except Err Resource × GState :=
  match findUser uid with
  | none => (.error .notFound, σ)
  | some u =>
    match mk? path with
    | .error e => (.error e, σ)
    | .ok rp =>
      match join u.rootPath rp with
      | .error e => (.error e, σ)
      | .ok full =>
        let (ex, σ) := gwExists σ full
        if !ex then (.error .notFound, σ)
        else if isDirectory rp then (Resource.mk? rp .directory none, σ)
        else
          let (n, σ') := gwGetFileSize fsize σ full
          (Resource.mk? rp .file (some n), σ')

/-- `DeleteResourceInteractor.__call__`. -/
def deleteResource (findUser : Str → Option Usr) (uid path : Str)
    (σ : GState) : Except Err Unit × GState :=
  match findUser uid with
  | none => (.error .notFound, σ)
  | some u =>
    match mk? path with
    | .error e => (.error e, σ)
    | .ok rp =>
      match join u.rootPath rp with
      | .error e => (.error e, σ)
      | .ok full =>
        let (ex, σ) := gwExists σ full
        if !ex then (.error .notFound, σ)
        else (.ok (), gwDelete σ full)

/-- The directory branch of `DownloadResourceInteractor.__call__`: fetch
every listed part at `full.join(part)`. -/
def downloadLoop (full : Str) : List Str → GState → Except Err Unit × GState
  | [], σ => (.ok (), σ)
  | p :: ps, σ =>
    match join full p with
    | .error e => (.error e, σ)
    | .ok k => downloadLoop full ps (gwGetFile σ k)

/-- `DownloadResourceInteractor.__call__` (the archive collaborator itself
is outside the storage gateway and is not traced). -/
def downloadResource (findUser : Str → Option Usr) (uid path : Str)
    (σ : GState) : Except Err Unit × GState :=
  match findUser uid with
  | none => (.error .notFound, σ)
  | some u =>
    match mk? path with
    | .error e => (.error e, σ)
    | .ok rp =>
      match join u.rootPath rp with
      | .error e => (.error e, σ)
      | .ok full =>
        let (ex, σ) := gwExists σ full
        if !ex then (.error .notFound, σ)
        else if !(isDirectory rp) then (.ok (), gwGetFile σ full)
        else
          let (parts, σ') := gwListRecursive σ full
          downloadLoop full parts σ'

/-- The ancestor-materialization loop shared by upload and
create-directory: walk `parent` upward from the target, creating each
missing ancestor, stopping at the first existing one or at the root. -/
def materializeF (root : Str) : Nat → Str → GState → Except Err Unit × GState
  | 0, _, σ => (.ok (), σ)
  | fuel + 1, buf, σ =>
    if buf = [] then (.ok (), σ)
    else
      match join root (parent buf) with
      | .error e => (.error e, σ)
      | .ok pfull =>
        let (ex, σ') := gwExists σ pfull
        if ex then (.ok (), σ')
        else materializeF root fuel (parent buf) (gwCreateDirectory σ' pfull)

/-- The loop itself: `buf.length` fuel always suffices because `parent`
strictly shortens a non-root value, and zero fuel coincides with the
root-stop case. -/
def materialize (root : Str) (buf : Str) (σ : GState) : Except Err Unit × GState :=
  materializeF root buf.length buf σ

/-- `UploadFileInteractor.__call__` (the byte content enters only through
its length). -/
def uploadFile (findUser : Str → Option Usr) (uid target : Str) (contentLen : Nat)
    (σ : GState) : Except Err Resource × GState :=
  match findUser uid with
  | none => (.error .notFound, σ)
  | some u =>
    match mk? target with
    | .error e => (.error e, σ)
    | .ok fp =>
      match join u.rootPath fp with
      | .error e => (.error e, σ)
      | .ok full =>
        let (ex, σ) := gwExists σ full
        if ex then (.error .alreadyExists, σ)
        else
          match materialize u.rootPath fp σ with
          | (.error e, σ') => (.error e, σ')
          | (.ok _, σ') =>
            (Resource.mk? fp .file (some (contentLen : Int)), gwSaveFile σ' full)

/-- `CreateDirectoryInteractor.__call__`. -/
def createDirectory (findUser : Str → Option Usr) (uid path : Str)
    (σ : GState) : Except Err Resource × GState :=
  match findUser uid with
  | none => (.error .notFound, σ)
  | some u =>
    match mk? path with
    | .error e => (.error e, σ)
    | .ok dp =>
      if !(isDirectory dp) then (.error .notDirectory, σ)
      else
        match join u.rootPath dp with
        | .error e => (.error e, σ)
        | .ok full =>
          let (ex, σ) := gwExists σ full
          if ex then (.error .alreadyExists, σ)
          else
            match materialize u.rootPath dp σ with
            | (.error e, σ') => (.error e, σ')
            | (.ok _, σ') =>
              (Resource.mk? dp .directory none, gwCreateDirectory σ' full)

/-- Python `s.replace(pat, "", 1)`: delete the first occurrence of `pat`. -/
def replaceOnce (pat : Str) : Str → Str
  | [] => []
  | c :: t => if pat.isPrefixOf (c :: t) then (c :: t).drop pat.length else c :: replaceOnce pat t

/-- The per-child body of `ListDirectoryInteractor.__call__`. -/
def listLoop (fsize : Str → Int) (root : Str) :
    List Str → GState → Except Err (List Resource) × GState
  | [], σ => (.ok [], σ)
  | child :: rest, σ =>
    match mk? (replaceOnce root child) with
    | .error e => (.error e, σ)
    | .ok rel =>
      if endsWithChar child '/' then
        match Resource.mk? rel .directory none with
        | .error e => (.error e, σ)
        | .ok r =>
          match listLoop fsize root rest σ with
          | (.error e, σ') => (.error e, σ')
          | (.ok rs, σ') => (.ok (r :: rs), σ')
      else
        let (n, σ') := gwGetFileSize fsize σ child
        match Resource.mk? rel .file (some n) with
        | .error e => (.error e, σ')
        | .ok r =>
          match listLoop fsize root rest σ' with
          | (.error e, σ'') => (.error e, σ'')
          | (.ok rs, σ'') => (.ok (r :: rs), σ'')

/-- `ListDirectoryInteractor.__call__`. -/
def listDirectory (findUser : Str → Option Usr) (fsize : Str → Int) (uid path : Str)
    (σ : GState) : Except Err (List Resource) × GState :=
  match findUser uid with
  | none => (.error .notFound, σ)
  | some u =>
    match mk? path with
    | .error e => (.error e, σ)
    | .ok dp =>
      if !(isDirectory dp) then (.error .notDirectory, σ)
      else
        match join u.rootPath dp with
        | .error e => (.error e, σ)
        | .ok full =>
          let (ex, σ) := gwExists σ full
          if !ex then (.error .notFound, σ)
          else
            let (children, σ') := gwListDirectory σ full
            listLoop fsize u.rootPath children σ'

/-- The filter comprehension of `SearchResourceInteractor.__call__`:
construct a path from every listed entry and keep those whose name equals
the query. -/
def searchFound (q : Str) : List Str → Except Err (List Str)
  | [] => .ok []
  | res :: rest =>
    match mk? res with
    | .error e => .error e
    | .ok rp =>
      match searchFound q rest with
      | .error e => .error e
      | .ok acc => .ok (if q == nameOf rp then rp :: acc else acc)

/-- The result-building loop of `SearchResourceInteractor.__call__`. -/
def searchBuild (fsize : Str → Int) (root : Str) :
    List Str → GState → Except Err (List Resource) × GState
  | [], σ => (.ok [], σ)
  | res :: rest, σ =>
    match mk? res with
    | .error e => (.error e, σ)
    | .ok rp =>
      if isDirectory rp then
        match Resource.mk? rp .directory none with
        | .error e => (.error e, σ)
        | .ok r =>
          match searchBuild fsize root rest σ with
          | (.error e, σ') => (.error e, σ')
          | (.ok rs, σ') => (.ok (r :: rs), σ')
      else
        match join root res with
        | .error e => (.error e, σ)
        | .ok k =>
          let (n, σ') := gwGetFileSize fsize σ k
          match Resource.mk? rp .file (some n) with
          | .error e => (.error e, σ')
          | .ok r =>
            match searchBuild fsize root rest σ' with
            | (.error e, σ'') => (.error e, σ'')
            | (.ok rs, σ'') => (.ok (r :: rs), σ'')

/-- `SearchResourceInteractor.__call__`. -/
def searchResource (findUser : Str → Option Usr) (fsize : Str → Int) (uid q : Str)
    (σ : GState) : Except Err (List Resource) × GState :=
  match findUser uid with
  | none => (.error .notFound, σ)
  | some u =>
    let (rels, σ') := gwListRecursive σ u.rootPath
    match searchFound q rels with
    | .error e => (.error e, σ')
    | .ok founded => searchBuild fsize u.rootPath founded σ'

/-- `MoveResourceInteractor.__call__`. -/
def moveResource (findUser : Str → Option Usr) (fsize : Str → Int) (uid : Str)
    (current target : Str) (σ : GState) : Except Err Resource × GState :=
  match findUser uid with
  | none => (.error .notFound, σ)
  | some u =>
    match join u.rootPath current with
    | .error e => (.error e, σ)
    | .ok curFull =>
      match join u.rootPath target with
      | .error e => (.error e, σ)
      | .ok tgtFull =>
        let (ex1, σ) := gwExists σ curFull
        if !ex1 then (.error .notFound, σ)
        else
          let (ex2, σ) := gwExists σ tgtFull
          if ex2 then (.error .alreadyExists, σ)
          else
            let σ := gwMove σ curFull tgtFull
            match mk? target with
            | .error e => (.error e, σ)
            | .ok tp =>
              if isDirectory tp then (Resource.mk? tp .directory none, σ)
              else
                let (n, σ') := gwGetFileSize fsize σ tgtFull
                (Resource.mk? tp .file (some n), σ')

/-- What the register interactor persisted: saved logins and whether a
commit was issued. -/
structure RegOut where
  saved : List Str
  committed : Bool
  deriving Repr, DecidableEq

/-- `[A-Za-z]` (ASCII codes 65–90 and 97–122). -/
def isLatinLetter (c : Char) : Bool :=
  (65 ≤ c.toNat && c.toNat ≤ 90) || (97 ≤ c.toNat && c.toNat ≤ 122)

/-- The special characters `!@#$%^&*_` of the password policy, by code. -/
def isSpecialChar (c : Char) : Bool :=
  [33, 64, 35, 36, 37, 94, 38, 42, 95].contains c.toNat

/-- A character the password pattern `^[A-Za-z\d!@#$%^&*_]{8,}$` admits.
In a Python `re` str pattern `\d` matches every Unicode decimal digit
(category Nd), not only ASCII `0-9`; that class is external to this model
and enters it as the parameter `isDigitRe`. -/
def isAllowedPwChar (isDigitRe : Char → Bool) (c : Char) : Bool :=
  isLatinLetter c || isDigitRe c || isSpecialChar c

/-- A character matching the required-class search `[\d!@#$%^&*_]`, over
the same digit class `isDigitRe`. -/
def isRequiredPwChar (isDigitRe : Char → Bool) (c : Char) : Bool :=
  isDigitRe c || isSpecialChar c

/-- `RegisterUserInteractor._is_strong_password`, over the Unicode digit
class `isDigitRe` behind the pattern's `\d`. -/
def isStrongPassword (isDigitRe : Char → Bool) (pw : Str) : Bool :=
  decide (8 ≤ pw.length) && pw.all (isAllowedPwChar isDigitRe) &&
    pw.any (isRequiredPwChar isDigitRe)

/-- A character the login pattern `^[A-Za-z\d!@#$%^&*]{3,}$` admits (no
underscore here), over the same digit class. -/
def isLoginChar (isDigitRe : Char → Bool) (c : Char) : Bool :=
  isLatinLetter c || isDigitRe c || [33, 64, 35, 36, 37, 94, 38, 42].contains c.toNat

/-- `User._is_valid_login` from `domain/models.py`. -/
def isValidLogin (isDigitRe : Char → Bool) (l : Str) : Bool :=
  decide (3 ≤ l.length) && l.all (isLoginChar isDigitRe)

/-- `RegisterUserInteractor.__call__`: password policy, `User`
construction (login validation), duplicate-login check, then save and
commit. `isDigitRe` is the ambient Unicode decimal-digit class used by
both `\d` patterns. -/
def register (isDigitRe : Char → Bool) (findByLogin : Str → Option Usr)
    (login pw : Str) : Except Err Unit × RegOut :=
  if !isStrongPassword isDigitRe pw then (.error .weakPassword, ⟨[], false⟩)
  else if !isValidLogin isDigitRe login then (.error .domainValidation, ⟨[], false⟩)
  else
    match findByLogin login with
    | some _ => (.error .alreadyExists, ⟨[], false⟩)
    | none => (.ok (), ⟨[login], true⟩)

/-- Every storage key the run added to the gateway trace lies under `root`. -/
def UnderRoot (root : Str) (σ σ' : GState) : Prop :=
  ∀ k ∈ σ'.touched, k ∈ σ.touched ∨ root <+: k

theorem underRoot_refl (root : Str) (σ : GState) : UnderRoot root σ σ :=
  fun _ hk => Or.inl hk

theorem underRoot_trans {root : Str} {σ₁ σ₂ σ₃ : GState}
    (h12 : UnderRoot root σ₁ σ₂) (h23 : UnderRoot root σ₂ σ₃) : UnderRoot root σ₁ σ₃ :=
  fun k hk => (h23 k hk).elim (fun h => h12 k h) Or.inr

theorem underRoot_touch (root : Str) (σ : GState) (k : Str) (h : root <+: k) :
    UnderRoot root σ { σ with touched := k :: σ.touched } := by
  intro x hx
  rcases List.mem_cons.mp hx with rfl | hx
  exacts [Or.inr h, Or.inl hx]

theorem underRoot_touch_keys (root : Str) (σ : GState) (k : Str) (ks : List Str)
    (h : root <+: k) :
    UnderRoot root σ ⟨ks, k :: σ.touched⟩ := by
  intro x hx
  rcases List.mem_cons.mp hx with rfl | hx
  exacts [Or.inr h, Or.inl hx]

theorem underRoot_touch2_keys (root : Str) (σ : GState) (k₁ k₂ : Str) (ks : List Str)
    (h₁ : root <+: k₁) (h₂ : root <+: k₂) :
    UnderRoot root σ ⟨ks, k₁ :: k₂ :: σ.touched⟩ := by
  intro x hx
  rcases List.mem_cons.mp hx with rfl | hx
  · exact Or.inr h₁
  rcases List.mem_cons.mp hx with rfl | hx
  exacts [Or.inr h₂, Or.inl hx]

theorem root_pre_of_join {root o f : Str} (h : join root o = .ok f) : root <+: f := by
  rw [join_shape root o f h]
  exact List.prefix_append root o

theorem materializeF_underRoot (root : Str) :
    ∀ (fuel : Nat) (buf : Str) (σ : GState), UnderRoot root σ (materializeF root fuel buf σ).2 := by
  intro fuel
  induction fuel with
  | zero => exact fun buf σ => underRoot_refl root σ
  | succ n ih =>
    intro buf σ
    by_cases hbuf : buf = []
    · rw [materializeF, if_pos hbuf]
      exact underRoot_refl root σ
    · rw [materializeF, if_neg hbuf]
      cases hj : join root (parent buf) with
      | error e => exact underRoot_refl root σ
      | ok pfull =>
        have hpre : root <+: pfull := root_pre_of_join hj
        simp only [gwExists]
        by_cases hex : σ.keys.contains pfull = true
        · rw [if_pos hex]
          exact underRoot_touch root σ pfull hpre
        · rw [if_neg hex]
          refine underRoot_trans ?_ (ih (parent buf) _)
          intro x hx
          simp only [gwCreateDirectory, List.mem_cons] at hx
          rcases hx with rfl | rfl | hx
          exacts [Or.inr hpre, Or.inr hpre, Or.inl hx]

theorem materialize_underRoot (root buf : Str) (σ : GState) :
    UnderRoot root σ (materialize root buf σ).2 :=
  materializeF_underRoot root buf.length buf σ

theorem downloadLoop_underRoot (root full : Str) (hfull : root <+: full) :
    ∀ (ps : List Str) (σ : GState), UnderRoot root σ (downloadLoop full ps σ).2 := by
  intro ps
  induction ps with
  | nil => exact fun σ => underRoot_refl root σ
  | cons p ps ih =>
    intro σ
    simp only [downloadLoop]
    cases hj : join full p with
    | error e => exact underRoot_refl root σ
    | ok k =>
      have hk : root <+: k := by
        rw [join_shape full p k hj]
        exact hfull.trans (List.prefix_append full p)
      refine underRoot_trans ?_ (ih _)
      intro x hx
      simp only [gwGetFile, List.mem_cons] at hx
      rcases hx with rfl | hx
      exacts [Or.inr hk, Or.inl hx]

theorem listLoop_underRoot (fsize : Str → Int) (root : Str) :
    ∀ (children : List Str) (σ : GState),
      (∀ c ∈ children, root <+: c) →
      UnderRoot root σ (listLoop fsize root children σ).2 := by
  intro children
  induction children with
  | nil => exact fun σ _ => underRoot_refl root σ
  | cons child rest ih =>
    intro σ hch
    have hc : root <+: child := hch child (by simp)
    have hrest : ∀ c ∈ rest, root <+: c := fun c hcm => hch c (by simp [hcm])
    simp only [listLoop]
    cases mk? (replaceOnce root child) with
    | error e => exact underRoot_refl root σ
    | ok rel =>
      dsimp only
      by_cases hdir : endsWithChar child '/' = true
      · rw [if_pos hdir]
        cases Resource.mk? rel .directory none with
        | error e => exact underRoot_refl root σ
        | ok r =>
          have hrec := ih σ hrest
          cases hrun : listLoop fsize root rest σ with
          | mk res σ' =>
            rw [hrun] at hrec
            cases res with
            | error e => exact hrec
            | ok rs => exact hrec
      · rw [if_neg hdir]
        simp only [gwGetFileSize]
        cases Resource.mk? rel .file (some (fsize child)) with
        | error e => exact underRoot_touch root σ child hc
        | ok r =>
          have hstep : UnderRoot root σ { σ with touched := child :: σ.touched } :=
            underRoot_touch root σ child hc
          have hrec := ih { σ with touched := child :: σ.touched } hrest
          refine underRoot_trans hstep ?_
          cases hrun : listLoop fsize root rest { σ with touched := child :: σ.touched } with
          | mk res σ' =>
            rw [hrun] at hrec
            cases res with
            | error e => exact hrec
            | ok rs => exact hrec

theorem searchBuild_underRoot (fsize : Str → Int) (root : Str) :
    ∀ (founded : List Str) (σ : GState),
      UnderRoot root σ (searchBuild fsize root founded σ).2 := by
  intro founded
  induction founded with
  | nil => exact fun σ => underRoot_refl root σ
  | cons res rest ih =>
    intro σ
    simp only [searchBuild]
    cases mk? res with
    | error e => exact underRoot_refl root σ
    | ok rp =>
      dsimp only
      by_cases hdir : isDirectory rp = true
      · rw [if_pos hdir]
        cases Resource.mk? rp .directory none with
        | error e => exact underRoot_refl root σ
        | ok r =>
          have hrec := ih σ
          cases hrun : searchBuild fsize root rest σ with
          | mk r2 σ' =>
            rw [hrun] at hrec
            cases r2 with
            | error e => exact hrec
            | ok rs => exact hrec
      · rw [if_neg hdir]
        cases hj : join root res with
        | error e => exact underRoot_refl root σ
        | ok k =>
          have hk : root <+: k := root_pre_of_join hj
          simp only [gwGetFileSize]
          cases Resource.mk? rp .file (some (fsize k)) with
          | error e => exact underRoot_touch root σ k hk
          | ok r =>
            have hstep : UnderRoot root σ { σ with touched := k :: σ.touched } :=
              underRoot_touch root σ k hk
            have hrec := ih { σ with touched := k :: σ.touched }
            refine underRoot_trans hstep ?_
            cases hrun : searchBuild fsize root rest { σ with touched := k :: σ.touched } with
            | mk r2 σ' =>
              rw [hrun] at hrec
              cases r2 with
              | error e => exact hrec
              | ok rs => exact hrec

theorem getResource_under (fu : Str → Option Usr) (fsize : Str → Int) (uid path : Str)
    (σ : GState) (u : Usr) (hfu : fu uid = some u) :
    UnderRoot u.rootPath σ (getResource fu fsize uid path σ).2 := by
  unfold getResource
  rw [hfu]
  cases mk? path with
  | error e => exact underRoot_refl _ σ
  | ok rp =>
    dsimp only
    cases hj : join u.rootPath rp with
    | error e => exact underRoot_refl _ σ
    | ok full =>
      have hpre := root_pre_of_join hj
      dsimp only [gwExists, gwGetFileSize]
      split_ifs with h1 h2
      · exact underRoot_touch _ σ full hpre
      · exact underRoot_touch _ σ full hpre
      · exact underRoot_touch2_keys _ σ full full _ hpre hpre

theorem deleteResource_under (fu : Str → Option Usr) (uid path : Str)
    (σ : GState) (u : Usr) (hfu : fu uid = some u) :
    UnderRoot u.rootPath σ (deleteResource fu uid path σ).2 := by
  unfold deleteResource
  rw [hfu]
  cases mk? path with
  | error e => exact underRoot_refl _ σ
  | ok rp =>
    dsimp only
    cases hj : join u.rootPath rp with
    | error e => exact underRoot_refl _ σ
    | ok full =>
      have hpre := root_pre_of_join hj
      dsimp only [gwExists, gwDelete]
      split_ifs with h1
      · exact underRoot_touch _ σ full hpre
      · exact underRoot_touch2_keys _ σ full full _ hpre hpre

theorem downloadResource_under (fu : Str → Option Usr) (uid path : Str)
    (σ : GState) (u : Usr) (hfu : fu uid = some u) :
    UnderRoot u.rootPath σ (downloadResource fu uid path σ).2 := by
  unfold downloadResource
  rw [hfu]
  cases mk? path with
  | error e => exact underRoot_refl _ σ
  | ok rp =>
    dsimp only
    cases hj : join u.rootPath rp with
    | error e => exact underRoot_refl _ σ
    | ok full =>
      have hpre := root_pre_of_join hj
      dsimp only [gwExists, gwGetFile, gwListRecursive]
      split_ifs with h1 h2
      · exact underRoot_touch _ σ full hpre
      · exact underRoot_touch2_keys _ σ full full _ hpre hpre
      · refine underRoot_trans (underRoot_touch2_keys _ σ full full σ.keys hpre hpre) ?_
        exact downloadLoop_underRoot _ full hpre _ _

theorem uploadFile_under (fu : Str → Option Usr) (uid target : Str) (contentLen : Nat)
    (σ : GState) (u : Usr) (hfu : fu uid = some u) :
    UnderRoot u.rootPath σ (uploadFile fu uid target contentLen σ).2 := by
  unfold uploadFile
  rw [hfu]
  cases mk? target with
  | error e => exact underRoot_refl _ σ
  | ok fp =>
    dsimp only
    cases hj : join u.rootPath fp with
    | error e => exact underRoot_refl _ σ
    | ok full =>
      have hpre := root_pre_of_join hj
      dsimp only [gwExists]
      split_ifs with h1
      · exact underRoot_touch _ σ full hpre
      · have hstep : UnderRoot u.rootPath σ { σ with touched := full :: σ.touched } :=
          underRoot_touch _ σ full hpre
        have hmat := materialize_underRoot u.rootPath fp
          { σ with touched := full :: σ.touched }
        cases hrun : materialize u.rootPath fp { σ with touched := full :: σ.touched } with
        | mk res σ' =>
          rw [hrun] at hmat
          cases res with
          | error e => exact underRoot_trans hstep hmat
          | ok r =>
            refine underRoot_trans (underRoot_trans hstep hmat) ?_
            intro x hx
            simp only [gwSaveFile, List.mem_cons] at hx
            rcases hx with rfl | hx
            exacts [Or.inr hpre, Or.inl hx]

theorem createDirectory_under (fu : Str → Option Usr) (uid path : Str)
    (σ : GState) (u : Usr) (hfu : fu uid = some u) :
    UnderRoot u.rootPath σ (createDirectory fu uid path σ).2 := by
  unfold createDirectory
  rw [hfu]
  cases mk? path with
  | error e => exact underRoot_refl _ σ
  | ok dp =>
    dsimp only
    by_cases hdir : isDirectory dp = true
    · rw [if_neg (by simp [hdir])]
      cases hj : join u.rootPath dp with
      | error e => exact underRoot_refl _ σ
      | ok full =>
        have hpre := root_pre_of_join hj
        dsimp only [gwExists]
        split_ifs with h1
        · exact underRoot_touch _ σ full hpre
        · have hstep : UnderRoot u.rootPath σ { σ with touched := full :: σ.touched } :=
            underRoot_touch _ σ full hpre
          have hmat := materialize_underRoot u.rootPath dp
            { σ with touched := full :: σ.touched }
          cases hrun : materialize u.rootPath dp { σ with touched := full :: σ.touched } with
          | mk res σ' =>
            rw [hrun] at hmat
            cases res with
            | error e => exact underRoot_trans hstep hmat
            | ok r =>
              refine underRoot_trans (underRoot_trans hstep hmat) ?_
              intro x hx
              simp only [gwCreateDirectory, List.mem_cons] at hx
              rcases hx with rfl | hx
              exacts [Or.inr hpre, Or.inl hx]
    · rw [if_pos (by simpa using hdir)]
      exact underRoot_refl _ σ

theorem listDirectory_under (fu : Str → Option Usr) (fsize : Str → Int) (uid path : Str)
    (σ : GState) (u : Usr) (hfu : fu uid = some u) :
    UnderRoot u.rootPath σ (listDirectory fu fsize uid path σ).2 := by
  unfold listDirectory
  rw [hfu]
  cases mk? path with
  | error e => exact underRoot_refl _ σ
  | ok dp =>
    dsimp only
    by_cases hdir : isDirectory dp = true
    · rw [if_neg (by simp [hdir])]
      cases hj : join u.rootPath dp with
      | error e => exact underRoot_refl _ σ
      | ok full =>
        have hpre := root_pre_of_join hj
        dsimp only [gwExists, gwListDirectory]
        split_ifs with h1
        · exact underRoot_touch _ σ full hpre
        · refine underRoot_trans (underRoot_touch2_keys _ σ full full σ.keys hpre hpre) ?_
          apply listLoop_underRoot
          intro c hc
          have hc' := List.mem_filter.mp hc
          have hcpre : full.isPrefixOf c = true := by
            have := hc'.2
            simp only [Bool.and_eq_true] at this
            exact this.1.1
          exact hpre.trans (List.isPrefixOf_iff_prefix.mp hcpre)
    · rw [if_pos (by simpa using hdir)]
      exact underRoot_refl _ σ

theorem searchResource_under (fu : Str → Option Usr) (fsize : Str → Int) (uid q : Str)
    (σ : GState) (u : Usr) (hfu : fu uid = some u) :
    UnderRoot u.rootPath σ (searchResource fu fsize uid q σ).2 := by
  unfold searchResource
  rw [hfu]
  dsimp only [gwListRecursive]
  have hstep : UnderRoot u.rootPath σ { σ with touched := u.rootPath :: σ.touched } :=
    underRoot_touch _ σ u.rootPath (List.prefix_refl _)
  cases searchFound q (σ.keys.filterMap fun x =>
      if u.rootPath.isPrefixOf x && !(x == u.rootPath) then some (x.drop u.rootPath.length)
      else none) with
  | error e => exact hstep
  | ok founded => exact underRoot_trans hstep (searchBuild_underRoot fsize _ founded _)

theorem moveResource_under (fu : Str → Option Usr) (fsize : Str → Int)
    (uid current target : Str) (σ : GState) (u : Usr) (hfu : fu uid = some u) :
    UnderRoot u.rootPath σ (moveResource fu fsize uid current target σ).2 := by
  unfold moveResource
  rw [hfu]
  dsimp only
  cases hc : join u.rootPath current with
  | error e => exact underRoot_refl u.rootPath σ
  | ok curFull =>
    dsimp only
    cases ht : join u.rootPath target with
    | error e => exact underRoot_refl u.rootPath σ
    | ok tgtFull =>
      have hcp := root_pre_of_join hc
      have htp := root_pre_of_join ht
      dsimp only [gwExists, gwMove, gwGetFileSize]
      split_ifs with h1 h2
      · exact underRoot_touch _ σ curFull hcp
      · exact underRoot_touch2_keys _ σ tgtFull curFull _ htp hcp
      · cases mk? target with
        | error e =>
          intro x hx
          simp only [List.mem_cons] at hx
          rcases hx with rfl | rfl | rfl | rfl | hx
          exacts [Or.inr htp, Or.inr hcp, Or.inr htp, Or.inr hcp, Or.inl hx]
        | ok tp =>
          dsimp only
          split_ifs with h3
          · intro x hx
            simp only [List.mem_cons] at hx
            rcases hx with rfl | rfl | rfl | rfl | hx
            exacts [Or.inr htp, Or.inr hcp, Or.inr htp, Or.inr hcp, Or.inl hx]
          · intro x hx
            simp only [List.mem_cons] at hx
            rcases hx with rfl | rfl | rfl | rfl | rfl | hx
            exacts [Or.inr htp, Or.inr htp, Or.inr hcp, Or.inr htp, Or.inr hcp, Or.inl hx]

end Fs

/-- **C2.** Every storage key any resource interactor passes to the
object-storage gateway lies inside the requesting user's root namespace:
along every run, each key newly handed to the gateway has `user.root_path`
as a prefix. -/
theorem claim_C2_all_keys_under_root (fu : Str → Option Fs.Usr) (fsize : Str → Int)
    (uid path current target q : Str) (contentLen : Nat) (σ : Fs.GState) (u : Fs.Usr)
    (hfu : fu uid = some u) :
    Fs.UnderRoot u.rootPath σ (Fs.getResource fu fsize uid path σ).2 ∧
    Fs.UnderRoot u.rootPath σ (Fs.listDirectory fu fsize uid path σ).2 ∧
    Fs.UnderRoot u.rootPath σ (Fs.searchResource fu fsize uid q σ).2 ∧
    Fs.UnderRoot u.rootPath σ (Fs.createDirectory fu uid path σ).2 ∧
    Fs.UnderRoot u.rootPath σ (Fs.uploadFile fu uid target contentLen σ).2 ∧
    Fs.UnderRoot u.rootPath σ (Fs.deleteResource fu uid path σ).2 ∧
    Fs.UnderRoot u.rootPath σ (Fs.moveResource fu fsize uid current target σ).2 ∧
    Fs.UnderRoot u.rootPath σ (Fs.downloadResource fu uid path σ).2 :=
  ⟨Fs.getResource_under fu fsize uid path σ u hfu,
   Fs.listDirectory_under fu fsize uid path σ u hfu,
   Fs.searchResource_under fu fsize uid q σ u hfu,
   Fs.createDirectory_under fu uid path σ u hfu,
   Fs.uploadFile_under fu uid target contentLen σ u hfu,
   Fs.deleteResource_under fu uid path σ u hfu,
   Fs.moveResource_under fu fsize uid current target σ u hfu,
   Fs.downloadResource_under fu uid path σ u hfu⟩

/-- Closed witness for C2: a concrete upload run only touches keys under
`user-1-files/`. -/
theorem claim_C2_witness :
    Fs.UnderRoot (pyStr "user-1-files/") ⟨[], []⟩
      (Fs.uploadFile (fun _ => some ⟨pyStr "1", pyStr "user-1-files/"⟩)
        (pyStr "1") (pyStr "folder1/test.txt") 5 ⟨[], []⟩).2 :=
  (claim_C2_all_keys_under_root (fun _ => some ⟨pyStr "1", pyStr "user-1-files/"⟩)
    (fun _ => 0) (pyStr "1") (pyStr "x") (pyStr "x") (pyStr "folder1/test.txt") (pyStr "x")
    5 ⟨[], []⟩ ⟨pyStr "1", pyStr "user-1-files/"⟩ rfl).2.2.2.2.1

namespace Fs

theorem latin_not_special (c : Char) (hl : isLatinLetter c = true) :
    isSpecialChar c = false := by
  rw [Bool.eq_false_iff]
  intro hsp
  unfold isLatinLetter at hl
  unfold isSpecialChar at hsp
  simp only [Bool.or_eq_true, Bool.and_eq_true, decide_eq_true_eq] at hl
  have hmem : c.toNat ∈ [33, 64, 35, 36, 37, 94, 38, 42, 95] := List.elem_iff.mp hsp
  simp only [List.mem_cons, List.not_mem_nil, or_false] at hmem
  rcases hl with ⟨a, b⟩ | ⟨a, b⟩ <;>
    rcases hmem with h | h | h | h | h | h | h | h | h <;> omega

theorem latin_not_required (isDigitRe : Char → Bool)
    (hdisj : ∀ c, isLatinLetter c = true → isDigitRe c = false)
    (c : Char) (hl : isLatinLetter c = true) :
    isRequiredPwChar isDigitRe c = false := by
  unfold isRequiredPwChar
  rw [hdisj c hl, latin_not_special c hl]
  rfl

theorem allowed_not_required_latin (isDigitRe : Char → Bool) (c : Char)
    (ha : isAllowedPwChar isDigitRe c = true)
    (hr : isRequiredPwChar isDigitRe c = false) : isLatinLetter c = true := by
  unfold isAllowedPwChar at ha
  unfold isRequiredPwChar at hr
  rcases Bool.or_eq_true_iff.mp ha with h | hsp
  · rcases Bool.or_eq_true_iff.mp h with hl | hdg
    · exact hl
    · rw [hdg] at hr
      simp at hr
  · rw [hsp] at hr
    simp at hr

end Fs

/-- The password policy of the claim, stated as violations: too short, a
character outside Latin letters, digits and the specials, or no non-letter
character at all; `isDigitRe` is the Unicode decimal-digit class of the
source's `\d`. -/
def weakPasswordPolicy (isDigitRe : Char → Bool) (pw : Str) : Prop :=
  pw.length < 8 ∨
  (∃ c ∈ pw, Fs.isAllowedPwChar isDigitRe c = false) ∨
  (∀ c ∈ pw, Fs.isLatinLetter c = true)

theorem weak_iff_not_strong (isDigitRe : Char → Bool)
    (hdisj : ∀ c, Fs.isLatinLetter c = true → isDigitRe c = false) (pw : Str) :
    weakPasswordPolicy isDigitRe pw ↔ ¬ (Fs.isStrongPassword isDigitRe pw = true) := by
  constructor
  · intro hw hs
    unfold Fs.isStrongPassword at hs
    simp only [Bool.and_eq_true, decide_eq_true_eq, List.all_eq_true, List.any_eq_true] at hs
    obtain ⟨⟨hlen, hall⟩, c, hc, hreq⟩ := hs
    rcases hw with h | ⟨d, hd, hdf⟩ | hlat
    · omega
    · rw [hall d hd] at hdf
      cases hdf
    · rw [Fs.latin_not_required isDigitRe hdisj c (hlat c hc)] at hreq
      cases hreq
  · intro hns
    unfold Fs.isStrongPassword at hns
    simp only [Bool.and_eq_true, decide_eq_true_eq, List.all_eq_true, List.any_eq_true] at hns
    by_cases hlen : 8 ≤ pw.length
    · by_cases hallowed : ∀ c ∈ pw, Fs.isAllowedPwChar isDigitRe c = true
      · refine Or.inr (Or.inr fun c hc => ?_)
        refine Fs.allowed_not_required_latin isDigitRe c (hallowed c hc) ?_
        rw [Bool.eq_false_iff]
        intro hreq
        exact hns ⟨⟨hlen, hallowed⟩, c, hc, hreq⟩
      · rcases not_forall.mp hallowed with ⟨c, hcc⟩
        rcases Classical.not_imp.mp hcc with ⟨hc, hcf⟩
        exact Or.inr (Or.inl ⟨c, hc, Bool.eq_false_iff.mpr hcf⟩)
    · exact Or.inl (by omega)

/-- **C4.** Register fails with the weak-password error exactly when the
password violates the policy, and every register failure — weak password,
invalid login, or taken login — saves no user record and issues no
commit. The Unicode decimal-digit class behind the source's `\d` patterns
enters as `isDigitRe`, constrained only by the Unicode fact that no Latin
letter is a decimal digit. -/
theorem claim_C4_register_policy_and_no_persist (isDigitRe : Char → Bool)
    (hdisj : ∀ c, Fs.isLatinLetter c = true → isDigitRe c = false) :
    (∀ (findByLogin : Str → Option Fs.Usr) (login pw : Str),
       (Fs.register isDigitRe findByLogin login pw).1 = .error .weakPassword ↔
         weakPasswordPolicy isDigitRe pw) ∧
    (∀ (findByLogin : Str → Option Fs.Usr) (login pw : Str) (e : Fs.Err),
       (Fs.register isDigitRe findByLogin login pw).1 = .error e →
         (Fs.register isDigitRe findByLogin login pw).2.saved = [] ∧
         (Fs.register isDigitRe findByLogin login pw).2.committed = false) := by
  constructor
  · intro findByLogin login pw
    rw [weak_iff_not_strong isDigitRe hdisj]
    unfold Fs.register
    by_cases hs : Fs.isStrongPassword isDigitRe pw = true
    · rw [if_neg (by simp [hs])]
      by_cases hl : Fs.isValidLogin isDigitRe login = true
      · rw [if_neg (by simp [hl])]
        cases findByLogin login with
        | some v => simp [hs]
        | none => simp [hs]
      · rw [if_pos (by simpa using hl)]
        simp [hs]
    · rw [if_pos (by simpa using hs)]
      simp [hs]
  · intro findByLogin login pw e
    unfold Fs.register
    by_cases hs : Fs.isStrongPassword isDigitRe pw = true
    · rw [if_neg (by simp [hs])]
      by_cases hl : Fs.isValidLogin isDigitRe login = true
      · rw [if_neg (by simp [hl])]
        cases findByLogin login with
        | some v => exact fun _ => ⟨rfl, rfl⟩
        | none => intro h; cases h
      · rw [if_pos (by simpa using hl)]
        exact fun _ => ⟨rfl, rfl⟩
    · rw [if_pos (by simpa using hs)]
      exact fun _ => ⟨rfl, rfl⟩

/-- A sample decimal-digit class for the witness: ASCII `0-9` together
with the Arabic-Indic digits U+0660–U+0669, a subset of Unicode's Nd. -/
def demoDigits (c : Char) : Bool :=
  (48 ≤ c.toNat && c.toNat ≤ 57) || (1632 ≤ c.toNat && c.toNat ≤ 1641)

theorem demoDigits_latin_disjoint : ∀ c, Fs.isLatinLetter c = true → demoDigits c = false := by
  intro c hl
  rw [Bool.eq_false_iff]
  intro hd
  unfold Fs.isLatinLetter at hl
  unfold demoDigits at hd
  simp only [Bool.or_eq_true, Bool.and_eq_true, decide_eq_true_eq] at hl hd
  rcases hl with ⟨a, b⟩ | ⟨a, b⟩ <;> rcases hd with ⟨d, e⟩ | ⟨d, e⟩ <;> omega

/-- Closed witness for C4, over a digit class containing ASCII and
Arabic-Indic digits: the weak password `"test"` is rejected with the
weak-password error, a failing registration (short login) persists
nothing, and a password of eight Arabic-Indic digits — decimal digits
under `\d` — is not rejected as weak. -/
theorem claim_C4_witness :
    ((Fs.register demoDigits (fun _ => none) (pyStr "ratmeow") (pyStr "test")).1
        = .error .weakPassword) ∧
    (Fs.register demoDigits (fun _ => none) (pyStr "ab") (pyStr "Password1")).2.saved = [] ∧
    (Fs.register demoDigits (fun _ => none) (pyStr "ab") (pyStr "Password1")).2.committed
        = false ∧
    (Fs.register demoDigits (fun _ => none) (pyStr "ratmeow") (pyStr "٠١٢٣٤٥٦٧")).1
        ≠ .error .weakPassword :=
  ⟨(((claim_C4_register_policy_and_no_persist demoDigits demoDigits_latin_disjoint).1
      (fun _ => none) (pyStr "ratmeow") (pyStr "test")).mpr (Or.inl (by decide))),
   ((claim_C4_register_policy_and_no_persist demoDigits demoDigits_latin_disjoint).2
      (fun _ => none) (pyStr "ab") (pyStr "Password1") .domainValidation rfl).1,
   ((claim_C4_register_policy_and_no_persist demoDigits demoDigits_latin_disjoint).2
      (fun _ => none) (pyStr "ab") (pyStr "Password1") .domainValidation rfl).2,
   fun h => absurd (((claim_C4_register_policy_and_no_persist demoDigits
        demoDigits_latin_disjoint).1
      (fun _ => none) (pyStr "ratmeow") (pyStr "٠١٢٣٤٥٦٧")).mp h)
     (by unfold weakPasswordPolicy; decide)⟩

namespace Fs

/-- The chain of proper ancestors of `p`, nearest first, ending with the
root `""`. -/
def ancChainF : Nat → Str → List Str
  | 0, _ => []
  | fuel + 1, p => if p = [] then [] else parent p :: ancChainF fuel (parent p)

def ancChain (p : Str) : List Str := ancChainF p.length p

theorem ancChainF_nil (fuel : Nat) : ancChainF fuel ([] : Str) = [] := by
  cases fuel with
  | zero => rfl
  | succ n => rw [ancChainF, if_pos rfl]

theorem ancChainF_eq : ∀ (n fuel : Nat) (p : Str), p.length ≤ n → p.length ≤ fuel →
    ancChainF fuel p = ancChainF p.length p := by
  intro n
  induction n with
  | zero =>
    intro fuel p h1 _
    have hp : p = [] := List.length_eq_zero.mp (Nat.le_zero.mp h1)
    subst hp
    rw [ancChainF_nil, ancChainF_nil]
  | succ n ih =>
    intro fuel p h1 h2
    by_cases hp : p = []
    · subst hp
      rw [ancChainF_nil, ancChainF_nil]
    · obtain ⟨m, hm⟩ : ∃ m, p.length = m + 1 := by
        cases hl : p.length with
        | zero => exact absurd (List.length_eq_zero.mp hl) hp
        | succ m => exact ⟨m, rfl⟩
      obtain ⟨k, rfl⟩ : ∃ k, fuel = k + 1 := by
        cases fuel with
        | zero => omega
        | succ k => exact ⟨k, rfl⟩
      have hpar := parent_length_lt p hp
      rw [ancChainF, if_neg hp, hm, ancChainF, if_neg hp]
      congr 1
      rw [ih k (parent p) (by omega) (by omega), ih m (parent p) (by omega) (by omega)]

theorem ancChain_cons (p : Str) (hp : p ≠ []) :
    ancChain p = parent p :: ancChain (parent p) := by
  unfold ancChain
  obtain ⟨m, hm⟩ : ∃ m, p.length = m + 1 := by
    cases hl : p.length with
    | zero => exact absurd (List.length_eq_zero.mp hl) hp
    | succ m => exact ⟨m, rfl⟩
  have hpar := parent_length_lt p hp
  rw [hm, ancChainF, if_neg hp]
  congr 1
  exact ancChainF_eq m m (parent p) (by omega) (by omega)

/-- The ancestors the materialization walk creates: the longest initial
run of the ancestor chain whose keys are absent from the store. -/
def createdChain (base : List Str) (root p : Str) : List Str :=
  (ancChain p).takeWhile (fun a => !(base.contains (root ++ a)))

theorem contains_append_str (l₁ l₂ : List Str) (a : Str) :
    (l₁ ++ l₂).contains a = (l₁.contains a || l₂.contains a) := by
  simp [List.contains, List.elem_eq_mem]

theorem contains_eq_false_of_len (l : List Str) (c : Str)
    (h : ∀ k ∈ l, c.length < k.length) : l.contains c = false := by
  rw [Bool.eq_false_iff]
  intro hc
  have hm := List.elem_iff.mp hc
  have := h c hm
  omega

theorem materialize_spec (root : Str) (hroot : validate root = true)
    (hrdir : isDirectory root = true) (base : List Str) :
    ∀ fuel (buf : Str), buf.length ≤ fuel → validate buf = true →
    ∀ (σ : GState) (extra : List Str),
      σ.keys = extra ++ base →
      (∀ k ∈ extra, root.length + buf.length ≤ k.length) →
      (materializeF root fuel buf σ).1 = .ok () ∧
      (materializeF root fuel buf σ).2.keys =
        ((createdChain base root buf).map (fun a => root ++ a)).reverse ++ σ.keys := by
  intro fuel
  induction fuel with
  | zero =>
    intro buf hlen _ σ extra _ _
    have hbuf : buf = [] := List.length_eq_zero.mp (Nat.le_zero.mp hlen)
    subst hbuf
    simp [materializeF, createdChain, ancChain, ancChainF]
  | succ n ih =>
    intro buf hlen hbv σ extra hσ hbound
    by_cases hbuf : buf = []
    · rw [materializeF, if_pos hbuf]
      subst hbuf
      simp [createdChain, ancChain, ancChainF]
    · have hpv : validate (parent buf) = true := parent_valid buf hbv
      have hj : join root (parent buf) = .ok (root ++ parent buf) :=
        join_ok root (parent buf) hroot hrdir hpv
      have hclen : (root ++ parent buf).length = root.length + (parent buf).length :=
        List.length_append root (parent buf)
      have hplt : (parent buf).length < buf.length := parent_length_lt buf hbuf
      have hextra : extra.contains (root ++ parent buf) = false := by
        refine contains_eq_false_of_len extra _ (fun k hk => ?_)
        have := hbound k hk
        omega
      have hsplit : σ.keys.contains (root ++ parent buf) =
          base.contains (root ++ parent buf) := by
        rw [hσ, contains_append_str, hextra, Bool.false_or]
      have hchain : ancChain buf = parent buf :: ancChain (parent buf) :=
        ancChain_cons buf hbuf
      rw [materializeF, if_neg hbuf, hj]
      dsimp only [gwExists]
      by_cases hex : σ.keys.contains (root ++ parent buf) = true
      · rw [if_pos hex]
        have hbase : base.contains (root ++ parent buf) = true := hsplit ▸ hex
        have hmem : root ++ parent buf ∈ base := List.elem_iff.mp hbase
        constructor
        · rfl
        · have : createdChain base root buf = [] := by
            unfold createdChain
            rw [hchain]
            simp [List.takeWhile, hmem]
          simp [this]
      · rw [if_neg hex]
        have hbase : base.contains (root ++ parent buf) = false := by
          rw [← hsplit]
          exact Bool.eq_false_iff.mpr hex
        have hnmem : root ++ parent buf ∉ base := by
          intro hm
          have hctr : base.contains (root ++ parent buf) = true := List.elem_iff.mpr hm
          rw [hbase] at hctr
          cases hctr
        have hrec := ih (parent buf) (by omega) hpv
          (gwCreateDirectory { σ with touched := (root ++ parent buf) :: σ.touched }
            (root ++ parent buf))
          ((root ++ parent buf) :: extra)
          (by simp [gwCreateDirectory, hσ])
          (by
            intro k hk
            rcases List.mem_cons.mp hk with rfl | hk
            · omega
            · have := hbound k hk
              omega)
        refine ⟨hrec.1, ?_⟩
        rw [hrec.2]
        have hcreated : createdChain base root buf =
            parent buf :: createdChain base root (parent buf) := by
          unfold createdChain
          rw [hchain]
          simp [List.takeWhile, hnmem]
        rw [hcreated]
        simp [gwCreateDirectory, List.reverse_cons]

theorem materialize_run (root : Str) (hroot : validate root = true)
    (hrdir : isDirectory root = true) (base : List Str) (buf : Str)
    (hbv : validate buf = true) (σ : GState) (hσ : σ.keys = base) :
    (materialize root buf σ).1 = .ok () ∧
    (materialize root buf σ).2.keys =
      ((createdChain base root buf).map (fun a => root ++ a)).reverse ++ σ.keys := by
  unfold materialize
  exact materialize_spec root hroot hrdir base buf.length buf (Nat.le_refl _) hbv σ []
    (by simp [hσ]) (by simp)

end Fs

/-- **C3.** For create-directory and upload-file, when the user exists and
the target key is absent, the interactor succeeds, the final store holds
exactly the target key plus the previously missing ancestors (the longest
initial run of the ancestor chain absent from the store, walking `parent`
upward and stopping at the first existing ancestor or at the root), and
the target marker/content write is the last key handed to the gateway. -/
theorem claim_C3_ancestor_materialization (fu : Str → Option Fs.Usr) (uid path target : Str)
    (contentLen : Nat) (σ : Fs.GState) (u : Fs.Usr) (hfu : fu uid = some u)
    (hroot : Fs.validate u.rootPath = true) (hrdir : Fs.isDirectory u.rootPath = true)
    (hp : Fs.validate path = true) (hpdir : Fs.isDirectory path = true)
    (hpabs : (u.rootPath ++ path) ∉ σ.keys)
    (ht : Fs.validate target = true) (htfile : Fs.isDirectory target = false)
    (htabs : (u.rootPath ++ target) ∉ σ.keys) :
    (Fs.createDirectory fu uid path σ =
      (.ok ⟨path, .directory, none⟩,
       ⟨(u.rootPath ++ path) ::
          ((Fs.createdChain σ.keys u.rootPath path).map (fun a => u.rootPath ++ a)).reverse ++
          σ.keys,
        (u.rootPath ++ path) ::
          (Fs.materialize u.rootPath path
            ⟨σ.keys, (u.rootPath ++ path) :: σ.touched⟩).2.touched⟩)) ∧
    (Fs.uploadFile fu uid target contentLen σ =
      (.ok ⟨target, .file, some (contentLen : Int)⟩,
       ⟨(u.rootPath ++ target) ::
          ((Fs.createdChain σ.keys u.rootPath target).map (fun a => u.rootPath ++ a)).reverse ++
          σ.keys,
        (u.rootPath ++ target) ::
          (Fs.materialize u.rootPath target
            ⟨σ.keys, (u.rootPath ++ target) :: σ.touched⟩).2.touched⟩)) := by
  have hpc : σ.keys.contains (u.rootPath ++ path) = false := by
    rw [Bool.eq_false_iff]
    intro hc
    exact hpabs (List.elem_iff.mp hc)
  have htc : σ.keys.contains (u.rootPath ++ target) = false := by
    rw [Bool.eq_false_iff]
    intro hc
    exact htabs (List.elem_iff.mp hc)
  constructor
  · have hmk : Fs.mk? path = .ok path := by simp [Fs.mk?, hp]
    have hj : Fs.join u.rootPath path = .ok (u.rootPath ++ path) :=
      Fs.join_ok u.rootPath path hroot hrdir hp
    unfold Fs.createDirectory
    rw [hfu]
    dsimp only
    rw [hmk]
    dsimp only
    rw [if_neg (by simp [hpdir]), hj]
    dsimp only [Fs.gwExists]
    rw [if_neg (by simpa using hpabs)]
    have hmat := Fs.materialize_run u.rootPath hroot hrdir σ.keys path hp
      ⟨σ.keys, (u.rootPath ++ path) :: σ.touched⟩ rfl
    cases hrun : Fs.materialize u.rootPath path ⟨σ.keys, (u.rootPath ++ path) :: σ.touched⟩ with
    | mk res σ' =>
      rw [hrun] at hmat
      obtain ⟨hres, hkeys⟩ := hmat
      dsimp only at hres hkeys
      subst hres
      dsimp only [Fs.gwCreateDirectory]
      have hres : Fs.Resource.mk? path .directory none = .ok ⟨path, .directory, none⟩ := by
        simp [Fs.Resource.mk?, Fs.Resource.validate, hpdir]
      rw [hres, hkeys]
      simp
  · have hmk : Fs.mk? target = .ok target := by simp [Fs.mk?, ht]
    have hj : Fs.join u.rootPath target = .ok (u.rootPath ++ target) :=
      Fs.join_ok u.rootPath target hroot hrdir ht
    unfold Fs.uploadFile
    rw [hfu]
    dsimp only
    rw [hmk]
    dsimp only
    rw [hj]
    dsimp only [Fs.gwExists]
    rw [if_neg (by simpa using htabs)]
    have hmat := Fs.materialize_run u.rootPath hroot hrdir σ.keys target ht
      ⟨σ.keys, (u.rootPath ++ target) :: σ.touched⟩ rfl
    cases hrun : Fs.materialize u.rootPath target ⟨σ.keys, (u.rootPath ++ target) :: σ.touched⟩ with
    | mk res σ' =>
      rw [hrun] at hmat
      obtain ⟨hres, hkeys⟩ := hmat
      dsimp only at hres hkeys
      subst hres
      dsimp only [Fs.gwSaveFile]
      have hres : Fs.Resource.mk? target .file (some (contentLen : Int)) =
          .ok ⟨target, .file, some (contentLen : Int)⟩ := by
        simp [Fs.Resource.mk?, Fs.Resource.validate, htfile]
      rw [hres, hkeys]
      simp

/-- Closed witness for C3: creating `"folder1/folder2/"` in an empty store
materializes `folder1/` and the root marker, then the target; uploading
`"folder1/test.txt"` materializes `folder1/` and the root marker, then
writes the file. -/
theorem claim_C3_witness :
    (Fs.createDirectory (fun _ => some ⟨pyStr "1", pyStr "user-1-files/"⟩)
        (pyStr "1") (pyStr "folder1/folder2/") ⟨[], []⟩).2.keys =
      [pyStr "user-1-files/folder1/folder2/", pyStr "user-1-files/",
       pyStr "user-1-files/folder1/"] ∧
    (Fs.uploadFile (fun _ => some ⟨pyStr "1", pyStr "user-1-files/"⟩)
        (pyStr "1") (pyStr "folder1/test.txt") 5 ⟨[], []⟩).2.keys =
      [pyStr "user-1-files/folder1/test.txt", pyStr "user-1-files/",
       pyStr "user-1-files/folder1/"] := by
  have h := claim_C3_ancestor_materialization (fun _ => some ⟨pyStr "1", pyStr "user-1-files/"⟩)
    (pyStr "1") (pyStr "folder1/folder2/") (pyStr "folder1/test.txt") 5 ⟨[], []⟩
    ⟨pyStr "1", pyStr "user-1-files/"⟩ rfl (by decide) (by decide) (by decide) (by decide)
    (by simp) (by decide) (by decide) (by simp)
  constructor
  · rw [h.1]
    decide
  · rw [h.2]
    decide

namespace Fs

/-- The `Resource` the search interactor produces for the entry whose
relative path is `rel` under `root`. -/
def searchEntry (fsize : Str → Int) (root rel : Str) : Resource :=
  if isDirectory rel then ⟨rel, .directory, none⟩
  else ⟨rel, .file, some (fsize (root ++ rel))⟩

theorem searchFound_ok (q : Str) :
    ∀ l : List Str, (∀ r ∈ l, validate r = true) →
      searchFound q l = .ok (l.filter (fun r => q == nameOf r)) := by
  intro l
  induction l with
  | nil => intro _; rfl
  | cons res rest ih =>
    intro hall
    have hres : validate res = true := hall res (by simp)
    have hrest := ih (fun r hr => hall r (by simp [hr]))
    rw [searchFound, show mk? res = .ok res by simp [mk?, hres], hrest]
    dsimp only
    by_cases hq : (q == nameOf res) = true
    · rw [if_pos hq, List.filter_cons, if_pos hq]
    · rw [if_neg hq, List.filter_cons, if_neg hq]

theorem searchBuild_ok (fsize : Str → Int) (root : Str)
    (hroot : validate root = true) (hrdir : isDirectory root = true)
    (hsz : ∀ k, 0 ≤ fsize k) :
    ∀ (l : List Str) (σ : GState), (∀ r ∈ l, validate r = true) →
      (searchBuild fsize root l σ).1 = .ok (l.map (searchEntry fsize root)) := by
  intro l
  induction l with
  | nil => intro σ _; rfl
  | cons res rest ih =>
    intro σ hall
    have hres : validate res = true := hall res (by simp)
    have hrest := fun σ' => ih σ' (fun r hr => hall r (by simp [hr]))
    rw [searchBuild, show mk? res = .ok res by simp [mk?, hres]]
    dsimp only
    by_cases hdir : isDirectory res = true
    · rw [if_pos hdir,
        show Resource.mk? res .directory none = .ok ⟨res, .directory, none⟩ by
          simp [Resource.mk?, Resource.validate, hdir]]
      dsimp only
      cases hrun : searchBuild fsize root rest σ with
      | mk r2 σ' =>
        have := hrest σ
        rw [hrun] at this
        dsimp only at this
        rw [this]
        dsimp only
        simp [List.map_cons, searchEntry, hdir]
    · rw [if_neg hdir, join_ok root res hroot hrdir hres]
      dsimp only [gwGetFileSize]
      rw [show Resource.mk? res .file (some (fsize (root ++ res))) =
          .ok ⟨res, .file, some (fsize (root ++ res))⟩ by
        simp [Resource.mk?, Resource.validate, hdir, hsz (root ++ res)]]
      dsimp only
      cases hrun : searchBuild fsize root rest { σ with touched := (root ++ res) :: σ.touched } with
      | mk r2 σ' =>
        have := hrest { σ with touched := (root ++ res) :: σ.touched }
        rw [hrun] at this
        dsimp only at this
        rw [this]
        dsimp only
        simp [List.map_cons, searchEntry, hdir]

end Fs

/-- **C6.** For every existing user, search returns exactly the entries
under the user's root whose name equals the query — files and directories
alike — with the size taken from a storage size query on the entry's own
key for files and absent for directories. -/
theorem claim_C6_search_exact (fu : Str → Option Fs.Usr) (fsize : Str → Int) (uid q : Str)
    (σ : Fs.GState) (u : Fs.Usr) (hfu : fu uid = some u)
    (hroot : Fs.validate u.rootPath = true) (hrdir : Fs.isDirectory u.rootPath = true)
    (hwf : ∀ k ∈ σ.keys, u.rootPath <+: k → k ≠ u.rootPath →
      Fs.validate (k.drop u.rootPath.length) = true)
    (hsz : ∀ k, 0 ≤ fsize k) :
    ∃ rs σ', Fs.searchResource fu fsize uid q σ = (.ok rs, σ') ∧
      ∀ r, r ∈ rs ↔ ∃ k, k ∈ σ.keys ∧ u.rootPath <+: k ∧ k ≠ u.rootPath ∧
        Fs.nameOf (k.drop u.rootPath.length) = q ∧
        r = Fs.searchEntry fsize u.rootPath (k.drop u.rootPath.length) := by
  set root := u.rootPath with hrootdef
  set f : Str → Option Str := fun x =>
    if root.isPrefixOf x && !(x == root) then some (x.drop root.length) else none with hf
  set rels : List Str := σ.keys.filterMap f with hrels
  have hrelsmem : ∀ r, r ∈ rels ↔ ∃ k ∈ σ.keys, root <+: k ∧ k ≠ root ∧
      r = k.drop root.length := by
    intro r
    rw [hrels, List.mem_filterMap]
    constructor
    · rintro ⟨k, hk, hfk⟩
      rw [hf] at hfk
      dsimp only at hfk
      by_cases hc : (root.isPrefixOf k && !(k == root)) = true
      · rw [if_pos hc] at hfk
        simp only [Bool.and_eq_true, Bool.not_eq_true', beq_eq_false_iff_ne] at hc
        exact ⟨k, hk, List.isPrefixOf_iff_prefix.mp hc.1, hc.2, (Option.some.inj hfk).symm⟩
      · rw [if_neg hc] at hfk
        cases hfk
    · rintro ⟨k, hk, hp, hne, rfl⟩
      refine ⟨k, hk, ?_⟩
      rw [hf]
      dsimp only
      rw [if_pos]
      simp only [Bool.and_eq_true, Bool.not_eq_true', beq_eq_false_iff_ne]
      exact ⟨List.isPrefixOf_iff_prefix.mpr hp, hne⟩
  have hrelsvalid : ∀ r ∈ rels, Fs.validate r = true := by
    intro r hr
    rcases (hrelsmem r).mp hr with ⟨k, hk, hp, hne, rfl⟩
    exact hwf k hk hp hne
  have hfound := Fs.searchFound_ok q rels hrelsvalid
  have hfiltvalid : ∀ r ∈ rels.filter (fun r => q == Fs.nameOf r), Fs.validate r = true :=
    fun r hr => hrelsvalid r (List.mem_of_mem_filter hr)
  unfold Fs.searchResource
  rw [hfu]
  dsimp only [Fs.gwListRecursive]
  rw [show σ.keys.filterMap (fun x =>
      if u.rootPath.isPrefixOf x && !(x == u.rootPath) then some (x.drop u.rootPath.length)
      else none) = rels from rfl, hfound]
  dsimp only
  set σ₁ : Fs.GState := { σ with touched := root :: σ.touched } with hσ₁
  have hbuild := Fs.searchBuild_ok fsize root hroot hrdir hsz
    (rels.filter (fun r => q == Fs.nameOf r)) σ₁ hfiltvalid
  cases hrun : Fs.searchBuild fsize root (rels.filter (fun r => q == Fs.nameOf r)) σ₁ with
  | mk r2 σ' =>
    rw [hrun] at hbuild
    dsimp only at hbuild
    subst hbuild
    refine ⟨_, σ', rfl, ?_⟩
    intro r
    rw [List.mem_map]
    constructor
    · rintro ⟨rel, hrel, rfl⟩
      have hq := (List.mem_filter.mp hrel).2
      rcases (hrelsmem rel).mp (List.mem_of_mem_filter hrel) with ⟨k, hk, hp, hne, rfl⟩
      exact ⟨k, hk, hp, hne, (beq_iff_eq.mp hq).symm, rfl⟩
    · rintro ⟨k, hk, hp, hne, hname, rfl⟩
      refine ⟨k.drop root.length, List.mem_filter.mpr ⟨(hrelsmem _).mpr ⟨k, hk, hp, hne, rfl⟩,
        beq_iff_eq.mpr hname.symm⟩, rfl⟩

/-- Closed witness for C6 on a concrete store: searching `"test2.txt"`
under `user-1-files/` finds the file and the name-colliding directory. -/
theorem claim_C6_witness :
    ∃ rs σ', Fs.searchResource (fun _ => some ⟨pyStr "1", pyStr "user-1-files/"⟩)
        (fun _ => 3) (pyStr "1") (pyStr "test2.txt")
        ⟨[pyStr "user-1-files/folder1/", pyStr "user-1-files/folder1/test2.txt",
          pyStr "user-1-files/test2.txt/"], []⟩ = (.ok rs, σ') ∧
      ∀ r, r ∈ rs ↔ ∃ k,
        k ∈ [pyStr "user-1-files/folder1/", pyStr "user-1-files/folder1/test2.txt",
             pyStr "user-1-files/test2.txt/"] ∧
        pyStr "user-1-files/" <+: k ∧ k ≠ pyStr "user-1-files/" ∧
        Fs.nameOf (k.drop (pyStr "user-1-files/").length) = pyStr "test2.txt" ∧
        r = Fs.searchEntry (fun _ => 3) (pyStr "user-1-files/")
              (k.drop (pyStr "user-1-files/").length) :=
  claim_C6_search_exact (fun _ => some ⟨pyStr "1", pyStr "user-1-files/"⟩) (fun _ => 3)
    (pyStr "1") (pyStr "test2.txt")
    ⟨[pyStr "user-1-files/folder1/", pyStr "user-1-files/folder1/test2.txt",
      pyStr "user-1-files/test2.txt/"], []⟩
    ⟨pyStr "1", pyStr "user-1-files/"⟩ rfl (by decide) (by decide)
    (by
      intro k hk hp hne
      fin_cases hk <;> decide)
    (fun _ => (by decide : (0 : Int) ≤ 3))

/-- **C5 (failing-input evaluation).** With the root marker key present in
storage — the state any upload or create-directory materialization
produces — a move whose source path is the user's root (empty relative
path) is **not** rejected: the interactor returns success and rewrites the
stored key, so the root is moved. -/
theorem claim_C5_root_move_not_rejected :
    (Fs.moveResource (fun _ => some ⟨pyStr "1", pyStr "user-1-files/"⟩) (fun _ => 0)
        (pyStr "1") (pyStr "") (pyStr "folder/")
        ⟨[pyStr "user-1-files/"], []⟩).1 =
      .ok ⟨pyStr "folder/", .directory, none⟩ ∧
    (Fs.moveResource (fun _ => some ⟨pyStr "1", pyStr "user-1-files/"⟩) (fun _ => 0)
        (pyStr "1") (pyStr "") (pyStr "folder/")
        ⟨[pyStr "user-1-files/"], []⟩).2.keys =
      [pyStr "user-1-files/folder/"] :=
  ⟨rfl, rfl⟩

end CloudStorage
